import Mathlib

/-!
Verification development for the Avanse AI counsellor repository
(`src/app.py`, `src/utils.py`).

Python strings are modelled as lists of characters (`Str`), Python
`None` for optional string values as `Option.none`, Python dicts as
association lists or as functions with explicit update, and the
mutation of `st.session_state` as explicit state passing.  Each
definition below is a direct translation of the corresponding Python
function named in its doc comment.
-/

/-- A Python string, modelled as its list of characters. -/
abbrev Str := List Char

/-- Shorthand turning a Lean string literal into a `Str` for the concrete
test inputs. -/
def strL (s : String) : Str := s.toList

/-- Leading-whitespace removal half of Python `str.strip()`:
`dropWhile isWhitespace`. -/
def wsDrop (s : Str) : Str := s.dropWhile Char.isWhitespace

/-- Python `str.strip()`: removes leading and trailing whitespace.
(Modelled over space/tab/newline/carriage-return, the whitespace the
repository's data actually contains.) -/
def trim (s : Str) : Str := (wsDrop ((wsDrop s).reverse)).reverse

/-- Python `str.split(',')`: split on every comma; no separator yields
the one-piece list (`"".split(',') == [""]`). -/
def splitOnComma : Str → List Str
  | [] => [[]]
  | c :: cs =>
    if c = ',' then [] :: splitOnComma cs
    else
      match splitOnComma cs with
      | [] => [[c]]
      | t :: ts => (c :: t) :: ts

/-- Python `", ".join(pieces)`. -/
def joinCS : List Str → Str
  | [] => []
  | [s] => s
  | s :: t :: ts => s ++ ',' :: ' ' :: joinCS (t :: ts)

/-- Model of `[x.strip() for x in s.split(',')]` from
`SessionTracker.update_from_llm`. -/
def splitTrim (s : Str) : List Str := (splitOnComma s).map trim

/-- The placeholder literals of `SessionTracker.update_from_llm`:
`["null", "None", "", "N/A", "unknown"]`. -/
def placeholderVals : List Str :=
  [strL "null", strL "None", strL "", strL "N/A", strL "unknown"]

/-- The guard `if new_val and new_val not in ["null","None","","N/A","unknown"]`
of `SessionTracker.update_from_llm` (for a string `new_val`, Python
truthiness is non-emptiness). -/
def isUsable (v : Str) : Bool := !v.isEmpty && !(placeholderVals.contains v)

/-- One iteration of the inner `for item in new_list` loop of
`SessionTracker.update_from_llm`: the accumulator is the growing
`current_list` together with the `changed` flag. -/
def mergeStep (p : List Str × Bool) (item : Str) : List Str × Bool :=
  if item ≠ [] ∧ item ∉ p.1 then (p.1 ++ [item], true) else p

/-- The per-field body of `SessionTracker.update_from_llm`: given the
currently stored value of one field (`none` models both a missing key
and a stored Python `None`) and the extracted `new_val`, produce the
new stored value.  An unusable `new_val` leaves the field untouched; a
falsy current value (`None` or `""`) is overwritten verbatim;
otherwise both sides are split on `','`, trimmed, deduplicated
case-sensitively in first-seen order, and re-joined with `", "` only
when something was actually appended. -/
def mergeField (current : Option Str) (new_val : Str) : Option Str :=
  if isUsable new_val then
    match current with
    | none => some new_val
    | some cv =>
      if cv = [] then some new_val
      else
        let res := (splitTrim new_val).foldl mergeStep (splitTrim cv, false)
        if res.2 then some (joinCS res.1) else some cv
  else current

/-- Model of `st.session_state.user_details`: a mapping from field name to an
optional stored string. -/
abbrev Profile := String → Option Str

/-- Model of the assignment `st.session_state.user_details[key] = v`. -/
def setField (d : Profile) (k : String) (v : Option Str) : Profile :=
  fun k' => if k' = k then v else d k'

/-- Model of `SessionTracker.update_from_llm(extracted_data)`: iterate the merge
over the extracted key/value pairs (a Python dict, hence the pairs of
interest carry pairwise distinct keys). -/
def update_from_llm (d : Profile) : List (String × Str) → Profile
  | [] => d
  | (k, v) :: rest => update_from_llm (setField d k (mergeField (d k) v)) rest

/-- The initial `user_details` dict built in `SessionTracker.__init__`:
eight fields explicitly `None` (indistinguishable, for the merge, from
an absent key, hence `none`), `Sentiment = "Neutral"`,
`Propensity = "Low"`. -/
def initial_user_details : Profile := fun k =>
  if k = "Sentiment" then some (strL "Neutral")
  else if k = "Propensity" then some (strL "Low")
  else none

/-- Helper for `countOcc`: scan one character at a time; `skip` is the
number of characters still covered by the previous match (so matches do
not overlap, as in Python's `str.count`). -/
def countOccAux : Str → Str → Nat → Nat
  | [], _, _ => 0
  | _ :: cs, pat, Nat.succ n => countOccAux cs pat n
  | c :: cs, pat, 0 =>
    if pat ≠ [] ∧ pat.isPrefixOf (c :: cs) then
      1 + countOccAux cs pat (pat.length - 1)
    else countOccAux cs pat 0

/-- Python `s.count(sub)` (non-overlapping occurrence count). -/
def countOcc (s pat : Str) : Nat := countOccAux s pat 0

/-- The state of `KeyManager` (`src/utils.py`): `keys` is the
provider → credential-list dict built in `__init__` (`none` models an
unknown provider, i.e. a key missing from the dict), and `indices`
models `st.session_state.key_indices` together with the `.get(provider, 0)`
default. -/
structure KeyManager where
  keys : String → Option (List Str)
  indices : String → Nat

/-- Model of `KeyManager.get_current_key(provider)`: `None` when the provider is
unknown or has no credentials, otherwise the credential at
`indices[provider] % len(keys[provider])`. -/
def get_current_key (km : KeyManager) (p : String) : Option Str :=
  match km.keys p with
  | none => none
  | some [] => none
  | some (k :: ks) => (k :: ks).get? (km.indices p % (k :: ks).length)

/-- Model of `KeyManager.rotate_key(provider)`: no-op returning `None` on an
unknown provider or empty credential list; otherwise advance the
index by one modulo the list length and return the new current
credential.  The mutation of `st.session_state.key_indices` is
modelled by returning the updated state. -/
def rotate_key (km : KeyManager) (p : String) : KeyManager × Option Str :=
  match km.keys p with
  | none => (km, none)
  | some [] => (km, none)
  | some (k :: ks) =>
    let km' : KeyManager :=
      ⟨km.keys, fun q =>
        if q = p then (km.indices p + 1) % (k :: ks).length else km.indices q⟩
    (km', get_current_key km' p)

/-- Python `s.lower()` (ASCII case folding, as used on the error
strings of `LLMClient.get_response`). -/
def lowerStr (s : Str) : Str := s.map Char.toLower

/-- Model of `pat in s` for Python strings: substring containment. -/
def containsSub : Str → Str → Bool
  | [], pat => pat.isEmpty
  | c :: cs, pat => pat.isPrefixOf (c :: cs) || containsSub cs pat

/-- The 429/quota detection of `LLMClient.get_response`:
`"429" in error_str or "quota" in error_str.lower() or
"resource_exhausted" in error_str.lower()`. -/
def is429Quota (error_str : Str) : Bool :=
  containsSub error_str (strL "429") ||
  containsSub (lowerStr error_str) (strL "quota") ||
  containsSub (lowerStr error_str) (strL "resource_exhausted")

/-- A decoded Python JSON value (`json.loads` output).  `null` doubles
as the Python `None` object; numbers are modelled as integers (the
repository's data contains no fractional literals). -/
inductive Json where
  | null
  | bool (b : Bool)
  | num (n : Int)
  | str (s : Str)
  | arr (xs : List Json)
  | obj (kvs : List (Str × Json))

/-- The character `{` (written via its code point). -/
def lbrace : Char := Char.ofNat 123

/-- The character `}` (written via its code point). -/
def rbrace : Char := Char.ofNat 125

/-- JSON insignificant whitespace. -/
def isWsJ (c : Char) : Bool := c = ' ' || c = '\t' || c = '\n' || c = '\r'

/-- Drop insignificant whitespace. -/
def skipWs (s : Str) : Str := s.dropWhile isWsJ

/-- Single-character JSON string escapes (the forms the repository's
data contains). -/
def escChar (e : Char) : Option Char :=
  if e = '"' then some '"'
  else if e = '\\' then some '\\'
  else if e = '/' then some '/'
  else if e = 'n' then some '\n'
  else if e = 't' then some '\t'
  else if e = 'r' then some '\r'
  else none

/-- Parse the body of a JSON string literal (after the opening quote),
returning the decoded content and the remaining input. -/
def parseStrBody : Str → Option (Str × Str)
  | [] => none
  | c :: rest =>
    if c = '"' then some ([], rest)
    else if c = '\\' then
      match rest with
      | [] => none
      | e :: rest2 =>
        match escChar e with
        | some d =>
          match parseStrBody rest2 with
          | some (out, rem) => some (d :: out, rem)
          | none => none
        | none => none
    else
      match parseStrBody rest with
      | some (out, rem) => some (c :: out, rem)
      | none => none

/-- Decimal value of a digit string. -/
def digitsVal (ds : Str) : Nat := ds.foldl (fun n c => n * 10 + (c.toNat - '0'.toNat)) 0

/-- Parse an unsigned JSON integer (leading zeros rejected, as in
Python's `json`). -/
def parseNumCore (s : Str) : Option (Nat × Str) :=
  let ds := s.takeWhile Char.isDigit
  let rest := s.dropWhile Char.isDigit
  match ds with
  | [] => none
  | [d] => some (digitsVal [d], rest)
  | d :: es => if d = '0' then none else some (digitsVal (d :: es), rest)

/-- Parse a (possibly negated) JSON integer. -/
def parseNum (s : Str) : Option (Json × Str) :=
  match s with
  | '-' :: t =>
    match parseNumCore t with
    | some (n, rest) => some (Json.num (-(n : Int)), rest)
    | none => none
  | _ =>
    match parseNumCore s with
    | some (n, rest) => some (Json.num (n : Int), rest)
    | none => none

/-- Parser modes for the fuel-indexed JSON parser: a value, the inside
of an object (just after the opening brace), an object member list, the
inside of an array, an array item list. -/
inductive PMode where
  | val
  | objBody
  | objMember (acc : List (Str × Json))
  | arrBody
  | arrItem (acc : List Json)

/-- Fuel-indexed recursive-descent JSON parser (the model of Python's
`json.loads`).  Structural recursion on the fuel keeps every clause
kernel-reducible. -/
def parseJ : Nat → PMode → Str → Option (Json × Str)
  | 0, _, _ => none
  | Nat.succ fuel, PMode.val, s =>
    match skipWs s with
    | [] => none
    | c :: rest =>
      if c = '"' then
        match parseStrBody rest with
        | some (out, rem) => some (Json.str out, rem)
        | none => none
      else if c = lbrace then parseJ fuel PMode.objBody rest
      else if c = '[' then parseJ fuel PMode.arrBody rest
      else if (strL "true").isPrefixOf (c :: rest) then some (Json.bool true, (c :: rest).drop 4)
      else if (strL "false").isPrefixOf (c :: rest) then some (Json.bool false, (c :: rest).drop 5)
      else if (strL "null").isPrefixOf (c :: rest) then some (Json.null, (c :: rest).drop 4)
      else parseNum (c :: rest)
  | Nat.succ fuel, PMode.objBody, s =>
    match skipWs s with
    | [] => none
    | c :: rest =>
      if c = rbrace then some (Json.obj [], rest)
      else parseJ fuel (PMode.objMember []) (c :: rest)
  | Nat.succ fuel, PMode.objMember acc, s =>
    match skipWs s with
    | [] => none
    | c :: rest =>
      if c = '"' then
        match parseStrBody rest with
        | some (key, rem) =>
          match skipWs rem with
          | ':' :: rem2 =>
            match parseJ fuel PMode.val rem2 with
            | some (v, rem3) =>
              match skipWs rem3 with
              | ',' :: rem4 => parseJ fuel (PMode.objMember (acc ++ [(key, v)])) rem4
              | c2 :: rem4 =>
                if c2 = rbrace then some (Json.obj (acc ++ [(key, v)]), rem4) else none
              | [] => none
            | none => none
          | _ => none
        | none => none
      else none
  | Nat.succ fuel, PMode.arrBody, s =>
    match skipWs s with
    | [] => none
    | c :: rest =>
      if c = ']' then some (Json.arr [], rest)
      else parseJ fuel (PMode.arrItem []) (c :: rest)
  | Nat.succ fuel, PMode.arrItem acc, s =>
    match parseJ fuel PMode.val s with
    | some (v, rem) =>
      match skipWs rem with
      | ',' :: rem2 => parseJ fuel (PMode.arrItem (acc ++ [v])) rem2
      | ']' :: rem2 => some (Json.arr (acc ++ [v]), rem2)
      | _ => none
    | none => none

/-- Python `json.loads`: parse one JSON value and require only
whitespace to remain. -/
def jsonParse (s : Str) : Option Json :=
  match parseJ (3 * s.length + 8) PMode.val s with
  | some (v, rest) => if (skipWs rest).isEmpty then some v else none
  | none => none

/-- Index of the first occurrence of a character. -/
def idxOfChar : Str → Char → Option Nat
  | [], _ => none
  | c :: cs, t => if c = t then some 0 else (idxOfChar cs t).map (· + 1)

/-- Index of the last occurrence of a character. -/
def lastIdxOfChar : Str → Char → Option Nat
  | [], _ => none
  | c :: cs, t =>
    match lastIdxOfChar cs t with
    | some i => some (i + 1)
    | none => if c = t then some 0 else none

/-- Model of `re.search(r'\x7b.*\x7d', text, re.DOTALL)`: the greedy span from the
first opening brace to the last closing brace, when the latter comes
strictly after the former. -/
def braceSpan (s : Str) : Option Str :=
  match idxOfChar s lbrace, lastIdxOfChar s rbrace with
  | some i, some j => if i < j then some ((s.drop i).take (j + 1 - i)) else none
  | _, _ => none

/-- Dict lookup where a duplicate key keeps the last binding (as
`json.loads` does when building a Python dict). -/
def lookupLastJ : List (Str × Json) → Str → Option Json
  | [], _ => none
  | (k, v) :: rest, key =>
    match lookupLastJ rest key with
    | some r => some r
    | none => if k = key then some v else none

/-- Python `data.get(key, default)`; with default `Json.null` it is
also `data.get(key)` (a stored JSON `null` and a missing key both give
the Python `None` object). -/
def dictGet (kvs : List (Str × Json)) (key : Str) (dflt : Json) : Json :=
  match lookupLastJ kvs key with
  | some v => v
  | none => dflt

/-- Python truthiness of a decoded JSON value. -/
def pyFalsy : Json → Bool
  | .null => true
  | .bool b => !b
  | .num n => n = 0
  | .str s => s.isEmpty
  | .arr xs => xs.isEmpty
  | .obj kvs => kvs.isEmpty

/-- The ten lead fields read by both parsers, in source order. -/
def leadKeys : List Str :=
  [strL "Name", strL "Mobile", strL "Email", strL "Country",
   strL "Target_Degree", strL "Intended_Major", strL "College",
   strL "Budget", strL "Sentiment", strL "Propensity"]

/-- The `lead_info` dict literal built by both parsers:
`key → data.get(key)` over the ten lead fields. -/
def mkLeadObj (kvs : List (Str × Json)) : Json :=
  Json.obj (leadKeys.map (fun k => (k, dictGet kvs k Json.null)))

/-- The `lead_info` of an empty `data` dict: every field is the Python
`None`. -/
def emptyLeadObj : Json := mkLeadObj []

/-- The `data` dict of `extract_json_and_sources` (`src/app.py`):
`data = {}`, overwritten with `json.loads` of the greedy brace span
when that decodes (the `except: pass` keeps `{}` otherwise;
a decoded brace span is necessarily a dict). -/
def decodeSpan (text : Str) : List (Str × Json) :=
  match braceSpan text with
  | some g =>
    match jsonParse g with
    | some (Json.obj kvs) => kvs
    | _ => []
  | none => []

/-- Index of the first occurrence of a substring. -/
def subIdx : Str → Str → Option Nat
  | [], pat => if pat.isEmpty then some 0 else none
  | c :: cs, pat =>
    if pat.isPrefixOf (c :: cs) then some 0 else (subIdx cs pat).map (· + 1)

/-- Model of `re.sub(pat + r'.*', '', s, flags=re.DOTALL)`: truncate `s` at the
first occurrence of the literal `pat`. -/
def truncFrom (s pat : Str) : Str :=
  match subIdx s pat with
  | some i => s.take i
  | none => s

/-- Fuel-indexed removal of every non-overlapping occurrence of a
pattern (`str.replace(pat, '')` / `re.sub` on a literal pattern). -/
def removeAllAux : Nat → Str → Str → Str
  | 0, s, _ => s
  | _, [], _ => []
  | Nat.succ fuel, c :: cs, pat =>
    if pat ≠ [] ∧ pat.isPrefixOf (c :: cs) then
      removeAllAux fuel ((c :: cs).drop pat.length) pat
    else c :: removeAllAux fuel cs pat

/-- Model of `s.replace(pat, '')`. -/
def removeAll (s pat : Str) : Str := removeAllAux (s.length + 1) s pat

/-- The fallback `answer` computation of `extract_json_and_sources`
(`src/app.py` lines 294–298): truncate a trailing `user_options:` tail,
then a trailing `videos:` tail, then strip code-fence markers, with a
`strip()` after each step. -/
def fallback_answer (text : Str) : Str :=
  let a1 := trim (truncFrom text (strL "user_options:"))
  let a2 := trim (truncFrom a1 (strL "videos:"))
  trim (removeAll (removeAll a2 (strL "```json")) (strL "```"))

/-- The result quadruple of `extract_json_and_sources` (`src/app.py`).
The grounding-metadata `sources` come from the opaque response object,
not from the reply text, and are omitted here. -/
structure AppRes where
  answer : Json
  user_options : Json
  videos : Json
  lead_info : Json

/-- Model of `extract_json_and_sources` (`src/app.py`): decode the greedy brace
span, read `answer` / `user_options` / `videos` / the ten lead fields
from it, and fall back to the truncated-and-stripped raw text whenever
`answer` is falsy. -/
def extract_json_and_sources (text : Str) : AppRes :=
  let data := decodeSpan text
  let answer0 := dictGet data (strL "answer") Json.null
  let user_options := dictGet data (strL "user_options") (Json.arr [])
  let videos := dictGet data (strL "videos") (Json.arr [])
  let lead_info := mkLeadObj data
  let answer := if pyFalsy answer0 then Json.str (fallback_answer text) else answer0
  ⟨answer, user_options, videos, lead_info⟩

/-- The result 5-tuple `(answer, user_options, sources, videos,
lead_info)` of `LLMClient._parse_json_result` and
`LLMClient.get_response` (`src/utils.py`). -/
structure UtilsRes where
  answer : Json
  user_options : Json
  sources : List (Str × Str)
  videos : Json
  lead_info : Json

/-- Model of `LLMClient._parse_json_result` (`src/utils.py`): decode the greedy
brace span, else `json.loads` of the whole text, else `data = {}`; then
read the result fields with `data.get`.  The `Except.error` branch
models the uncaught Python `AttributeError`: when the whole text is
valid JSON of a non-dict (no brace span), `data.get(...)` is called on
a non-dict object and raises. -/
def parse_json_result (text : Str) : Except Unit UtilsRes :=
  let data : Json :=
    match braceSpan text with
    | some g =>
      match jsonParse g with
      | some d => d
      | none => Json.obj []
    | none =>
      match jsonParse text with
      | some d => d
      | none => Json.obj []
  match data with
  | Json.obj kvs =>
    Except.ok ⟨dictGet kvs (strL "answer") (Json.str text),
               dictGet kvs (strL "user_options") (Json.arr []),
               [],
               dictGet kvs (strL "videos") (Json.arr []),
               mkLeadObj kvs⟩
  | _ => Except.error ()

/-- The error-result tuples of `LLMClient.get_response`:
`(msg, {}, [], [], {})`. -/
def emptyRes (a : Str) : UtilsRes := ⟨Json.str a, Json.obj [], [], Json.arr [], Json.obj []⟩

/-- The outcome of one provider fetch attempt (the bodies of
`_fetch_google` / `_fetch_openai_compatible`, network included): a
successfully parsed result tuple, or an exception with its `str(e)`. -/
inductive FetchOutcome where
  | success (r : UtilsRes)
  | exn (msg : Str)

/-- The literal `"⚠️ No API Key found for this provider. Please add one in Settings."`. -/
def noKeyMsg : Str := strL "⚠️ No API Key found for this provider. Please add one in Settings."

/-- The literal `"⚠️ Quota Exhausted on all keys. Please try another provider."`. -/
def quotaMsg : Str := strL "⚠️ Quota Exhausted on all keys. Please try another provider."

/-- The f-string `f"❌ Error: ..."`. -/
def errorAnswer (msg : Str) : Str := strL "❌ Error: " ++ msg

/-- The retry loop of `LLMClient.get_response` (`src/utils.py`), with
the remaining retry budget as fuel (`max_retries = 2`), the attempt
index selecting the fetch outcome, and the key-manager state passed
explicitly. -/
def get_response_aux (outcomes : Nat → FetchOutcome) (p : String) :
    Nat → Nat → KeyManager → KeyManager × UtilsRes
  | 0, _, km => (km, emptyRes quotaMsg)
  | Nat.succ fuel, attempt, km =>
    match get_current_key km p with
    | none => (km, emptyRes noKeyMsg)
    | some _ =>
      match outcomes attempt with
      | .success r => (km, r)
      | .exn msg =>
        if is429Quota msg then
          get_response_aux outcomes p fuel (attempt + 1) (rotate_key km p).1
        else (km, emptyRes (errorAnswer msg))

/-- Model of `LLMClient.get_response(provider, ...)`: two attempts. -/
def get_response (outcomes : Nat → FetchOutcome) (km : KeyManager) (p : String) :
    KeyManager × UtilsRes :=
  get_response_aux outcomes p 2 0 km

/-- The `data` dict passed to `SheetLogger.upsert_lead`: field name →
string or Python `None` (`none`); a key absent from the list is absent
from the dict. -/
abbrev LeadDict := List (String × Option Str)

/-- Dict lookup keeping the last binding for a duplicate key. -/
def lookupLastD : LeadDict → String → Option (Option Str)
  | [], _ => none
  | (k, v) :: rest, key =>
    match lookupLastD rest key with
    | some r => some r
    | none => if k = key then some v else none

/-- Python `data.get(key, default)` on the lead dict. -/
def dgetD (d : LeadDict) (k : String) (dflt : Option Str) : Option Str :=
  match lookupLastD d k with
  | some v => v
  | none => dflt

/-- The `clean` helper of `SheetLogger.upsert_lead`:
`str(val) if val else ""`. -/
def clean : Option Str → Str
  | none => []
  | some s => if s = [] then [] else s

/-- The 15-column `row_data` list built by `SheetLogger.upsert_lead`
(the timestamp is wall-clock input, passed as a parameter). -/
def row_data (d : LeadDict) (timestamp : Str) : List Str :=
  [clean (dgetD d "Session_ID" none),
   timestamp,
   clean (dgetD d "Name" none),
   clean (dgetD d "Mobile" none),
   clean (dgetD d "Email" none),
   clean (dgetD d "Country" none),
   clean (dgetD d "Target_Degree" none),
   clean (dgetD d "Intended_Major" none),
   clean (dgetD d "College" none),
   clean (dgetD d "Budget" none),
   clean (dgetD d "Sentiment" (some (strL "Neutral"))),
   clean (dgetD d "Propensity" (some (strL "Low"))),
   clean (dgetD d "Time_Spent" (some (strL "0s"))),
   clean (dgetD d "User_Inputs_Only" (some [])),
   clean (dgetD d "Full_Conversation_History" (some []))]

/-- Python `str(x)` on an optional string (`str(None) == "None"`), as
applied to `data.get("Session_ID")`. -/
def pyStr : Option Str → Str
  | none => strL "None"
  | some s => s

/-- Python `list.index` (first index; only called under an `in` guard). -/
def listIndex : List Str → Str → Nat
  | [], _ => 0
  | x :: xs, t => if x = t then 0 else listIndex xs t + 1

/-- The f-string `f"A..row..:O..row.."` of `SheetLogger.upsert_lead`. -/
def cellRange (i : Nat) : Str :=
  'A' :: Nat.toDigits 10 i ++ ':' :: 'O' :: Nat.toDigits 10 i

/-- The cell range `upsert_lead` writes to: the existing row of the
session id when present in the key column, else the first row below
the populated rows. -/
def chosenRange (col1 : List Str) (sid : Str) : Str :=
  if sid ∈ col1 then cellRange (listIndex col1 sid + 1)
  else cellRange (col1.length + 1)

/-- The externally visible write performed by `SheetLogger.upsert_lead`:
either a remote range update or a local CSV append of a row. -/
inductive SinkAction where
  | remoteWrite (cell_range : Str) (row : List Str)
  | csvAppend (row : List Str)
deriving DecidableEq

/-- Model of `SheetLogger.upsert_lead` (`src/utils.py`): the two remote calls
(`sheet.col_values(1)` and `sheet.update(...)`) are oracles that either
return or raise (`Except.error`); any raise falls back to
`append_to_csv(row_data)`. -/
def upsert_lead (use_sheets : Bool) (col1E : Except Unit (List Str))
    (updE : Str → Except Unit Unit) (d : LeadDict) (timestamp : Str) : SinkAction :=
  let row := row_data d timestamp
  if use_sheets then
    match col1E with
    | .error _ => .csvAppend row
    | .ok col1 =>
      let sid := pyStr (dgetD d "Session_ID" none)
      let rng := chosenRange col1 sid
      match updE rng with
      | .error _ => .csvAppend row
      | .ok _ => .remoteWrite rng row
  else .csvAppend row

/-- The trimmed token list a stored field value denotes (the claim
vocabulary for the profile invariant): a falsy stored value (`None` or
`""`, which the merge treats as unset) has no tokens. -/
def storedTokens : Option Str → List Str
  | none => []
  | some v => if v = [] then [] else splitTrim v

/-! ### Lemmas about the string primitives -/

theorem wsDrop_cons_ws {c : Char} {s : Str} (h : Char.isWhitespace c = true) :
    wsDrop (c :: s) = wsDrop s := by
  simp [wsDrop, List.dropWhile_cons, h]

theorem wsDrop_eq_self {s : Str}
    (h : ∀ c, s.head? = some c → Char.isWhitespace c = false) : wsDrop s = s := by
  cases s with
  | nil => rfl
  | cons c cs => simp [wsDrop, List.dropWhile_cons, h c rfl]

theorem wsDrop_head (s : Str) :
    ∀ c, (wsDrop s).head? = some c → Char.isWhitespace c = false := by
  induction s with
  | nil => intro c h; simp [wsDrop] at h
  | cons a as ih =>
    intro c h
    by_cases ha : Char.isWhitespace a = true
    · rw [wsDrop_cons_ws ha] at h; exact ih c h
    · have hself : wsDrop (a :: as) = a :: as := by
        simp [wsDrop, List.dropWhile_cons, ha]
      rw [hself] at h
      cases h
      simpa using ha

theorem mem_wsDrop {x : Char} {s : Str} (h : x ∈ wsDrop s) : x ∈ s :=
  List.dropWhile_subset _ h

theorem mem_trim {x : Char} {s : Str} (h : x ∈ trim s) : x ∈ s := by
  unfold trim at h
  rw [List.mem_reverse] at h
  have h2 := mem_wsDrop h
  rw [List.mem_reverse] at h2
  exact mem_wsDrop h2

theorem trim_cons_ws {c : Char} {s : Str} (h : Char.isWhitespace c = true) :
    trim (c :: s) = trim s := by
  unfold trim
  rw [wsDrop_cons_ws h]

theorem trim_last (s : Str) :
    ∀ c, (wsDrop ((wsDrop s).reverse)).getLast? = some c → Char.isWhitespace c = false := by
  intro c hc
  obtain ⟨t, ht⟩ := List.dropWhile_suffix (l := (wsDrop s).reverse) (p := Char.isWhitespace)
  have hlast : ((wsDrop s).reverse).getLast? = some c := by
    rw [← ht, List.getLast?_append]
    show (wsDrop ((wsDrop s).reverse)).getLast?.or t.getLast? = some c
    rw [hc]
    rfl
  rw [List.getLast?_reverse] at hlast
  exact wsDrop_head s c hlast

theorem trim_idem (s : Str) : trim (trim s) = trim s := by
  have hts : trim s = (wsDrop ((wsDrop s).reverse)).reverse := rfl
  cases hB : wsDrop ((wsDrop s).reverse) with
  | nil => rw [hts, hB]; rfl
  | cons b bs =>
    rw [hts, hB]
    show (wsDrop ((wsDrop ((b :: bs).reverse)).reverse)).reverse = (b :: bs).reverse
    have h1 : wsDrop ((b :: bs).reverse) = (b :: bs).reverse := by
      apply wsDrop_eq_self
      intro c hc
      rw [List.head?_reverse] at hc
      exact trim_last s c (by rw [hB]; exact hc)
    rw [h1, List.reverse_reverse]
    have h2 : wsDrop (b :: bs) = b :: bs := by
      apply wsDrop_eq_self
      intro c hc
      apply wsDrop_head ((wsDrop s).reverse) c
      rw [hB]; exact hc
    rw [h2]

theorem splitOnComma_ne_nil (s : Str) : splitOnComma s ≠ [] := by
  cases s with
  | nil => simp [splitOnComma]
  | cons c cs =>
    by_cases h : c = ','
    · simp [splitOnComma, h]
    · simp only [splitOnComma, h, if_false]
      cases hs : splitOnComma cs <;> simp

theorem splitOnComma_no_comma (s : Str) : ∀ t ∈ splitOnComma s, ',' ∉ t := by
  induction s with
  | nil =>
    intro t ht
    simp only [splitOnComma, List.mem_singleton] at ht
    subst ht; simp
  | cons c cs ih =>
    intro t ht
    by_cases hc : c = ','
    · simp only [splitOnComma, hc, if_true, List.mem_cons] at ht
      rcases ht with h | h
      · subst h; simp
      · exact ih t h
    · simp only [splitOnComma, hc, if_false] at ht
      cases hs : splitOnComma cs with
      | nil => exact absurd hs (splitOnComma_ne_nil cs)
      | cons h0 hs' =>
        rw [hs] at ht
        rcases List.mem_cons.mp ht with h | h
        · subst h
          intro hmem
          rcases List.mem_cons.mp hmem with h1 | h1
          · exact hc h1.symm
          · exact ih h0 (hs ▸ List.mem_cons_self h0 hs') h1
        · exact ih t (hs ▸ List.mem_cons_of_mem h0 h)

theorem splitOnComma_of_no_comma {s : Str} (h : ',' ∉ s) : splitOnComma s = [s] := by
  induction s with
  | nil => rfl
  | cons c cs ih =>
    have hc : ¬ c = ',' := fun hcc => h (hcc ▸ List.mem_cons_self c cs)
    have hcs : ',' ∉ cs := fun hm => h (List.mem_cons_of_mem c hm)
    simp only [splitOnComma, hc, if_false, ih hcs]

theorem splitOnComma_append {a : Str} (t : Str) (h : ',' ∉ a) :
    splitOnComma (a ++ ',' :: t) = a :: splitOnComma t := by
  induction a with
  | nil => simp [splitOnComma]
  | cons c a' ih =>
    have hc : ¬ c = ',' := fun hcc => h (hcc ▸ List.mem_cons_self c a')
    have ha' : ',' ∉ a' := fun hm => h (List.mem_cons_of_mem c hm)
    show splitOnComma (c :: (a' ++ ',' :: t)) = (c :: a') :: splitOnComma t
    simp only [splitOnComma, hc, if_false]
    rw [ih ha']

theorem splitOnComma_space_cons {s : Str} (h : splitOnComma s ≠ []) :
    splitOnComma (' ' :: s) =
      (' ' :: (splitOnComma s).headI) :: (splitOnComma s).tail := by
  have hsp : ¬ (' ' = ',') := by decide
  cases hs : splitOnComma s with
  | nil => exact absurd hs h
  | cons h0 hs' => simp [splitOnComma, hsp, hs]

theorem splitOnComma_joinCS (a : Str) (r : List Str)
    (h : ∀ x ∈ a :: r, ',' ∉ x) :
    splitOnComma (joinCS (a :: r)) = a :: r.map (fun x => ' ' :: x) := by
  induction r generalizing a with
  | nil => simp [joinCS, splitOnComma_of_no_comma (h a (List.mem_cons_self a []))]
  | cons b r' ih =>
    have hjoin : joinCS (a :: b :: r') = a ++ ',' :: ' ' :: joinCS (b :: r') := rfl
    rw [hjoin, splitOnComma_append _ (h a (List.mem_cons_self _ _))]
    have hbr : ∀ x ∈ b :: r', ',' ∉ x := fun x hx => h x (List.mem_cons_of_mem a hx)
    have hih := ih b hbr
    rw [splitOnComma_space_cons (splitOnComma_ne_nil _), hih]
    simp

theorem splitTrim_good {s : Str} : ∀ x ∈ splitTrim s, trim x = x ∧ ',' ∉ x := by
  intro x hx
  obtain ⟨y, hy, rfl⟩ := List.mem_map.mp hx
  refine ⟨trim_idem y, ?_⟩
  intro hc
  exact splitOnComma_no_comma s y hy (mem_trim hc)

theorem splitTrim_joinCS (a : Str) (r : List Str)
    (h : ∀ x ∈ a :: r, trim x = x ∧ ',' ∉ x) :
    splitTrim (joinCS (a :: r)) = a :: r := by
  unfold splitTrim
  rw [splitOnComma_joinCS a r (fun x hx => (h x hx).2)]
  simp only [List.map_cons, List.map_map]
  rw [(h a (List.mem_cons_self a r)).1]
  congr 1
  have : ∀ x ∈ r, (trim ∘ fun x => ' ' :: x) x = id x := by
    intro x hx
    have hsp : Char.isWhitespace ' ' = true := by decide
    simp only [Function.comp, id]
    rw [trim_cons_ws hsp]
    exact (h x (List.mem_cons_of_mem a hx)).1
  rw [List.map_congr_left this, List.map_id]

theorem joinCS_ne_nil (a b : Str) (r : List Str) : joinCS (a :: b :: r) ≠ [] := by
  have : joinCS (a :: b :: r) = a ++ ',' :: ' ' :: joinCS (b :: r) := rfl
  rw [this]
  simp

/-! ### Lemmas about the deduplicating fold of `update_from_llm` -/

theorem mergeStep_of_new {acc : List Str} {b : Bool} {x : Str}
    (h : x ≠ [] ∧ x ∉ acc) : mergeStep (acc, b) x = (acc ++ [x], true) := by
  simp [mergeStep, h]

theorem mergeStep_of_old {acc : List Str} {b : Bool} {x : Str}
    (h : ¬ (x ≠ [] ∧ x ∉ acc)) : mergeStep (acc, b) x = (acc, b) := by
  simp only [mergeStep, if_neg h]

theorem foldl_mergeStep_noop (l : List Str) (acc : List Str) (b : Bool)
    (h : ∀ x ∈ l, x = [] ∨ x ∈ acc) :
    l.foldl mergeStep (acc, b) = (acc, b) := by
  induction l with
  | nil => rfl
  | cons x xs ih =>
    have hx : ¬ (x ≠ [] ∧ x ∉ acc) := by
      rcases h x (List.mem_cons_self _ _) with h1 | h1
      · intro hn; exact hn.1 h1
      · intro hn; exact hn.2 h1
    rw [List.foldl_cons, mergeStep_of_old hx]
    exact ih (fun y hy => h y (List.mem_cons_of_mem _ hy))

theorem foldl_mergeStep_shape (l : List Str) (acc : List Str) (b : Bool) :
    ∃ ex, (l.foldl mergeStep (acc, b)).1 = acc ++ ex ∧
      (∀ y ∈ ex, y ∈ l ∧ y ∉ acc ∧ y ≠ []) ∧ ex.Nodup := by
  induction l generalizing acc b with
  | nil => exact ⟨[], by simp, by simp, List.nodup_nil⟩
  | cons x xs ih =>
    rw [List.foldl_cons]
    by_cases hc : x ≠ [] ∧ x ∉ acc
    · rw [mergeStep_of_new hc]
      obtain ⟨ex, h1, h2, h3⟩ := ih (acc ++ [x]) true
      refine ⟨x :: ex, ?_, ?_, ?_⟩
      · rw [h1, List.append_assoc]; rfl
      · intro y hy
        rcases List.mem_cons.mp hy with rfl | hy'
        · exact ⟨List.mem_cons_self _ _, hc.2, hc.1⟩
        · obtain ⟨hm, hna, hne⟩ := h2 y hy'
          exact ⟨List.mem_cons_of_mem _ hm,
                 fun hya => hna (List.mem_append_left _ hya), hne⟩
      · refine List.nodup_cons.mpr ⟨?_, h3⟩
        intro hx
        exact (h2 x hx).2.1 (List.mem_append_right _ (List.mem_singleton.mpr rfl))
    · rw [mergeStep_of_old hc]
      obtain ⟨ex, h1, h2, h3⟩ := ih acc b
      exact ⟨ex, h1,
        fun y hy => ⟨List.mem_cons_of_mem _ (h2 y hy).1, (h2 y hy).2.1, (h2 y hy).2.2⟩, h3⟩

theorem foldl_mergeStep_mem (l : List Str) (acc : List Str) (b : Bool) :
    ∀ x ∈ l, x ≠ [] → x ∈ (l.foldl mergeStep (acc, b)).1 := by
  induction l generalizing acc b with
  | nil => intro x hx; cases hx
  | cons y ys ih =>
    intro x hx hxne
    rw [List.foldl_cons]
    rcases List.mem_cons.mp hx with rfl | hx'
    · by_cases hc : x ≠ [] ∧ x ∉ acc
      · rw [mergeStep_of_new hc]
        obtain ⟨ex, h1, _, _⟩ := foldl_mergeStep_shape ys (acc ++ [x]) true
        rw [h1, List.append_assoc]
        exact List.mem_append_right _
          (List.mem_append_left _ (List.mem_singleton.mpr rfl))
      · have hxacc : x ∈ acc := by
          by_contra hna
          exact hc ⟨hxne, hna⟩
        rw [mergeStep_of_old hc]
        obtain ⟨ex, h1, _, _⟩ := foldl_mergeStep_shape ys acc b
        rw [h1]
        exact List.mem_append_left _ hxacc
    · exact ih (mergeStep (acc, b) y).1 (mergeStep (acc, b) y).2 x hx' hxne

theorem foldl_mergeStep_true (l : List Str) (acc : List Str) :
    (l.foldl mergeStep (acc, true)).2 = true := by
  induction l generalizing acc with
  | nil => rfl
  | cons x xs ih =>
    rw [List.foldl_cons]
    by_cases hc : x ≠ [] ∧ x ∉ acc
    · rw [mergeStep_of_new hc]; exact ih (acc ++ [x])
    · rw [mergeStep_of_old hc]; exact ih acc

theorem foldl_mergeStep_false (l : List Str) (acc : List Str)
    (h : (l.foldl mergeStep (acc, false)).2 = false) :
    l.foldl mergeStep (acc, false) = (acc, false) := by
  induction l generalizing acc with
  | nil => rfl
  | cons x xs ih =>
    rw [List.foldl_cons] at h ⊢
    by_cases hc : x ≠ [] ∧ x ∉ acc
    · exfalso
      rw [mergeStep_of_new hc] at h
      rw [foldl_mergeStep_true xs (acc ++ [x])] at h
      cases h
    · rw [mergeStep_of_old hc] at h ⊢
      exact ih acc h

theorem foldl_mergeStep_grew (l : List Str) (acc : List Str)
    (h : (l.foldl mergeStep (acc, false)).2 = true) :
    acc.length < (l.foldl mergeStep (acc, false)).1.length := by
  induction l generalizing acc with
  | nil => simp at h
  | cons x xs ih =>
    rw [List.foldl_cons] at h ⊢
    by_cases hc : x ≠ [] ∧ x ∉ acc
    · rw [mergeStep_of_new hc] at h ⊢
      obtain ⟨ex, h1, _, _⟩ := foldl_mergeStep_shape xs (acc ++ [x]) true
      rw [h1]
      simp only [List.length_append, List.length_singleton]
      omega
    · rw [mergeStep_of_old hc] at h ⊢
      exact ih acc h

/-! ### Lemmas about `mergeField` and `update_from_llm` -/

theorem mergeField_unusable {c : Option Str} {v : Str} (h : isUsable v = false) :
    mergeField c v = c := by
  simp [mergeField, h]

theorem isUsable_ne_nil {v : Str} (h : isUsable v = true) : v ≠ [] := by
  intro hv
  subst hv
  simp [isUsable, placeholderVals, strL] at h

theorem splitTrim_ne_nil (s : Str) : splitTrim s ≠ [] := by
  unfold splitTrim
  intro h
  exact splitOnComma_ne_nil s (List.map_eq_nil_iff.mp h)

theorem mergeField_some_of_falsy {c : Option Str} {v : Str}
    (hu : isUsable v = true) (hc : c = none ∨ c = some []) :
    mergeField c v = some v := by
  rcases hc with rfl | rfl
  · simp [mergeField, hu]
  · simp [mergeField, hu]

theorem mergeField_set {cv v : Str} (hu : isUsable v = true) (hcv : cv ≠ []) :
    mergeField (some cv) v =
      (if ((splitTrim v).foldl mergeStep (splitTrim cv, false)).2 then
        some (joinCS ((splitTrim v).foldl mergeStep (splitTrim cv, false)).1)
      else some cv) := by
  simp [mergeField, hu, hcv]

theorem mergeField_changed {cv v : Str} {fl : List Str}
    (hu : isUsable v = true) (hcv : cv ≠ [])
    (hE : (splitTrim v).foldl mergeStep (splitTrim cv, false) = (fl, true)) :
    mergeField (some cv) v = some (joinCS fl) ∧
    joinCS fl ≠ [] ∧ splitTrim (joinCS fl) = fl ∧
    (∃ ex, fl = splitTrim cv ++ ex ∧
      (∀ y ∈ ex, y ∈ splitTrim v ∧ y ∉ splitTrim cv ∧ y ≠ []) ∧ ex.Nodup) := by
  have hmf : mergeField (some cv) v = some (joinCS fl) := by
    rw [mergeField_set hu hcv, hE]
    rfl
  obtain ⟨ex, h1, h2, h3⟩ := foldl_mergeStep_shape (splitTrim v) (splitTrim cv) false
  rw [hE] at h1
  replace h1 : fl = splitTrim cv ++ ex := h1
  have hgrew := foldl_mergeStep_grew (splitTrim v) (splitTrim cv) (by rw [hE])
  rw [hE] at hgrew
  replace hgrew : (splitTrim cv).length < fl.length := hgrew
  have hcur1 : 1 ≤ (splitTrim cv).length := by
    cases hs : splitTrim cv with
    | nil => exact absurd hs (splitTrim_ne_nil cv)
    | cons a t => simp
  have hfl2 : 2 ≤ fl.length := by omega
  obtain ⟨f1, fl1, rfl⟩ : ∃ f1 fl1, fl = f1 :: fl1 := by
    cases fl with
    | nil => simp at hfl2
    | cons a t => exact ⟨a, t, rfl⟩
  obtain ⟨f2, fl2, rfl⟩ : ∃ f2 fl2, fl1 = f2 :: fl2 := by
    cases fl1 with
    | nil => simp at hfl2
    | cons a t => exact ⟨a, t, rfl⟩
  have hgood : ∀ x ∈ f1 :: f2 :: fl2, trim x = x ∧ ',' ∉ x := by
    intro x hx
    have : x ∈ splitTrim cv ++ ex := h1 ▸ hx
    rcases List.mem_append.mp this with hm | hm
    · exact splitTrim_good x hm
    · exact splitTrim_good x (h2 x hm).1
  refine ⟨hmf, joinCS_ne_nil _ _ _, splitTrim_joinCS _ _ hgood, ex, h1, h2, h3⟩

theorem mergeField_idem (c : Option Str) (v : Str) :
    mergeField (mergeField c v) v = mergeField c v := by
  by_cases hu : isUsable v = true
  case neg =>
    have hu' : isUsable v = false := by
      cases h : isUsable v
      · rfl
      · exact absurd h hu
    rw [mergeField_unusable hu', mergeField_unusable hu']
  case pos =>
    have hv : v ≠ [] := isUsable_ne_nil hu
    have hreset : mergeField (some v) v = some v := by
      rw [mergeField_set hu hv,
        foldl_mergeStep_noop (splitTrim v) (splitTrim v) false
          (fun x hx => Or.inr hx)]
      rfl
    match c with
    | none => rw [mergeField_some_of_falsy hu (Or.inl rfl)]; exact hreset
    | some [] => rw [mergeField_some_of_falsy hu (Or.inr rfl)]; exact hreset
    | some (c0 :: cs) =>
      have hcv : (c0 :: cs) ≠ [] := by simp
      rcases hE2 : (splitTrim v).foldl mergeStep (splitTrim (c0 :: cs), false) with ⟨fl, ch⟩
      cases ch
      case false =>
        have hfix := foldl_mergeStep_false (splitTrim v) (splitTrim (c0 :: cs)) (by rw [hE2])
        have hres : mergeField (some (c0 :: cs)) v = some (c0 :: cs) := by
          rw [mergeField_set hu hcv, hE2]
          rfl
        rw [hres, hres]
      case true =>
        obtain ⟨hmf, hjne, hsplit, ex, hflshape, hexmem, hexnd⟩ :=
          mergeField_changed hu hcv hE2
        rw [hmf]
        rw [mergeField_set hu hjne, hsplit]
        have hnoop : (splitTrim v).foldl mergeStep (fl, false) = (fl, false) := by
          apply foldl_mergeStep_noop
          intro x hx
          by_cases hxe : x = []
          · exact Or.inl hxe
          · right
            have := foldl_mergeStep_mem (splitTrim v) (splitTrim (c0 :: cs)) false x hx hxe
            rw [hE2] at this
            exact this
        rw [hnoop]
        rfl

theorem setField_self (d : Profile) (k : String) : setField d k (d k) = d := by
  funext k'
  unfold setField
  by_cases h : k' = k
  · rw [if_pos h, h]
  · rw [if_neg h]

theorem setField_same (d : Profile) (k : String) (v : Option Str) :
    setField d k v k = v := by
  simp [setField]

theorem setField_other (d : Profile) (k k' : String) (v : Option Str) (h : k' ≠ k) :
    setField d k v k' = d k' := by
  simp [setField, h]

theorem update_from_llm_not_mem (d : Profile) (e : List (String × Str)) (k : String)
    (h : k ∉ e.map Prod.fst) : update_from_llm d e k = d k := by
  induction e generalizing d with
  | nil => rfl
  | cons kv rest ih =>
    obtain ⟨k', v⟩ := kv
    simp only [List.map_cons, List.mem_cons, not_or] at h
    rw [update_from_llm, ih _ h.2]
    exact setField_other d k' k _ h.1

theorem storedTokens_mergeField (c : Option Str) (v : Str) :
    ∃ ex, storedTokens (mergeField c v) = storedTokens c ++ ex := by
  by_cases hu : isUsable v = true
  case neg =>
    have hu' : isUsable v = false := by
      cases h : isUsable v
      · rfl
      · exact absurd h hu
    exact ⟨[], by rw [mergeField_unusable hu', List.append_nil]⟩
  case pos =>
    have hv : v ≠ [] := isUsable_ne_nil hu
    match c with
    | none =>
      refine ⟨splitTrim v, ?_⟩
      rw [mergeField_some_of_falsy hu (Or.inl rfl)]
      simp [storedTokens, hv]
    | some [] =>
      refine ⟨splitTrim v, ?_⟩
      rw [mergeField_some_of_falsy hu (Or.inr rfl)]
      simp [storedTokens, hv]
    | some (c0 :: cs) =>
      have hcv : (c0 :: cs) ≠ [] := by simp
      rcases hE : (splitTrim v).foldl mergeStep (splitTrim (c0 :: cs), false) with ⟨fl, ch⟩
      cases ch
      case false =>
        refine ⟨[], ?_⟩
        rw [mergeField_set hu hcv, hE, List.append_nil]
        rfl
      case true =>
        obtain ⟨hmf, hjne, hsplit, ex, hflshape, _, _⟩ := mergeField_changed hu hcv hE
        refine ⟨ex, ?_⟩
        rw [hmf]
        simp only [storedTokens, if_neg hjne, if_neg hcv, hsplit]
        exact hflshape

theorem mergeField_ne_none (c : Option Str) (v : Str) (h : c ≠ none) :
    mergeField c v ≠ none := by
  by_cases hu : isUsable v = true
  · match c with
    | none => exact absurd rfl h
    | some cv =>
      by_cases hcv : cv = []
      · subst hcv
        rw [mergeField_some_of_falsy hu (Or.inr rfl)]
        simp
      · rw [mergeField_set hu hcv]
        split <;> simp
  · have hu' : isUsable v = false := by
      cases h2 : isUsable v
      · rfl
      · exact absurd h2 hu
    rw [mergeField_unusable hu']
    exact h

theorem storedTokens_update (d : Profile) (e : List (String × Str)) (k : String) :
    ∃ ex, storedTokens (update_from_llm d e k) = storedTokens (d k) ++ ex := by
  induction e generalizing d with
  | nil => exact ⟨[], by simp [update_from_llm]⟩
  | cons kv rest ih =>
    obtain ⟨k0, v⟩ := kv
    rw [update_from_llm]
    obtain ⟨ex1, h1⟩ := ih (setField d k0 (mergeField (d k0) v))
    by_cases hk : k = k0
    · subst hk
      rw [setField_same] at h1
      obtain ⟨ex0, h0⟩ := storedTokens_mergeField (d k) v
      exact ⟨ex0 ++ ex1, by rw [h1, h0, List.append_assoc]⟩
    · rw [setField_other d k0 k _ hk] at h1
      exact ⟨ex1, h1⟩

theorem update_from_llm_ne_none (d : Profile) (e : List (String × Str)) (k : String)
    (h : d k ≠ none) : update_from_llm d e k ≠ none := by
  induction e generalizing d with
  | nil => exact h
  | cons kv rest ih =>
    obtain ⟨k0, v⟩ := kv
    rw [update_from_llm]
    apply ih
    by_cases hk : k = k0
    · subst hk
      rw [setField_same]
      exact mergeField_ne_none (d k) v h
    · rw [setField_other d k0 k _ hk]
      exact h

theorem upd_idem_aux (e : List (String × Str)) :
    ∀ d : Profile, (e.map Prod.fst).Nodup →
      ∀ k, update_from_llm (update_from_llm d e) e k = update_from_llm d e k := by
  induction e with
  | nil => intro d _ k; rfl
  | cons kv rest ih =>
    obtain ⟨k0, v⟩ := kv
    intro d h k
    rw [List.map_cons, List.nodup_cons] at h
    obtain ⟨hk0, hrest⟩ := h
    have hstep : ∀ d' : Profile,
        update_from_llm d' ((k0, v) :: rest) =
          update_from_llm (setField d' k0 (mergeField (d' k0) v)) rest := fun _ => rfl
    simp only [hstep]
    have hDk0 : update_from_llm (setField d k0 (mergeField (d k0) v)) rest k0
        = mergeField (d k0) v := by
      rw [update_from_llm_not_mem _ _ _ hk0, setField_same]
    rw [hDk0, mergeField_idem]
    have hset : setField (update_from_llm (setField d k0 (mergeField (d k0) v)) rest) k0
          (mergeField (d k0) v)
        = update_from_llm (setField d k0 (mergeField (d k0) v)) rest := by
      funext k'
      by_cases hk' : k' = k0
      · rw [hk', setField_same]
        exact hDk0.symm
      · exact setField_other _ _ _ _ hk'
    rw [hset]
    exact ih (setField d k0 (mergeField (d k0) v)) hrest k

/-- C1: the accumulator's merge is per-field idempotent — for every
profile state and every extraction map (an association list with
pairwise distinct keys, as a Python dict has), applying
`update_from_llm` with the same extraction twice yields exactly the
same profile as applying it once. -/
theorem accumulator_merge_idempotent (d : Profile) (e : List (String × Str))
    (h : (e.map Prod.fst).Nodup) (k : String) :
    update_from_llm (update_from_llm d e) e k = update_from_llm d e k :=
  upd_idem_aux e d h k

/-- Witness for C1 at a concrete profile and extraction map. -/
theorem accumulator_merge_idempotent_witness :
    update_from_llm (update_from_llm initial_user_details
        [("Country", strL "UK, Germany"), ("Name", strL "Bob")])
      [("Country", strL "UK, Germany"), ("Name", strL "Bob")] "Country"
      = update_from_llm initial_user_details
          [("Country", strL "UK, Germany"), ("Name", strL "Bob")] "Country" :=
  accumulator_merge_idempotent initial_user_details
    [("Country", strL "UK, Germany"), ("Name", strL "Bob")] (by decide) "Country"

/-- C2: merging `Country: "UK"`, then `"USA"`, then `"UK"` into a fresh
profile stores exactly `"UK, USA"`, and merging `"Germany, UK"` onto an
existing `"UK, USA"` stores `"UK, USA, Germany"`, which contains each
of `"Germany"`, `"UK"`, `"USA"` exactly once as a substring. -/
theorem country_accumulation_concrete :
    (update_from_llm (update_from_llm (update_from_llm initial_user_details
          [("Country", strL "UK")]) [("Country", strL "USA")])
        [("Country", strL "UK")]) "Country" = some (strL "UK, USA") ∧
    (update_from_llm (setField initial_user_details "Country" (some (strL "UK, USA")))
        [("Country", strL "Germany, UK")]) "Country" = some (strL "UK, USA, Germany") ∧
    countOcc (strL "UK, USA, Germany") (strL "Germany") = 1 ∧
    countOcc (strL "UK, USA, Germany") (strL "UK") = 1 ∧
    countOcc (strL "UK, USA, Germany") (strL "USA") = 1 := by
  refine ⟨by decide, by decide, by decide, by decide, by decide⟩

/-- C6: an extracted value that is exactly one of the placeholder
literals `"null"`, `"None"`, `""`, `"N/A"`, `"unknown"` is ignored by
the merge — the field's stored value is left unchanged, whatever the
profile held. -/
theorem placeholder_values_ignored (d : Profile) (e : List (String × Str)) (k : String)
    (h : ∀ kv ∈ e, kv.1 = k → kv.2 ∈ placeholderVals) :
    update_from_llm d e k = d k := by
  induction e generalizing d with
  | nil => rfl
  | cons kv rest ih =>
    obtain ⟨k0, v0⟩ := kv
    rw [update_from_llm]
    by_cases hk : k = k0
    · subst hk
      have hv0 : v0 ∈ placeholderVals := h (k, v0) (List.mem_cons_self _ _) rfl
      have hunus : isUsable v0 = false := by
        simp [isUsable, List.contains, hv0]
      rw [mergeField_unusable hunus, setField_self]
      exact ih d (fun kv hkv => h kv (List.mem_cons_of_mem _ hkv))
    · rw [ih _ (fun kv hkv => h kv (List.mem_cons_of_mem _ hkv))]
      exact setField_other d k0 k _ hk

/-- Witness for C6: merging the literal `"null"` into a fresh profile
leaves `Country` unset. -/
theorem placeholder_values_ignored_witness :
    update_from_llm initial_user_details [("Country", strL "null")] "Country"
      = initial_user_details "Country" :=
  placeholder_values_ignored initial_user_details [("Country", strL "null")] "Country"
    (by decide)

/-- The normal form asserted by the spec's Lead Profile invariant: a
set value is the `", "`-join of its own trimmed comma-split tokens,
and those tokens are pairwise distinct. -/
def normalForm : Option Str → Prop
  | none => True
  | some s => s = joinCS (splitTrim s) ∧ (splitTrim s).Nodup

/-- Counterexample to C7: merging `Country: "UK, UK"` into a fresh
profile stores the value verbatim, whose token list `["UK", "UK"]` is
not distinct — the claimed invariant fails after one merge. -/
theorem profile_invariant_cex :
    update_from_llm initial_user_details [("Country", strL "UK, UK")] "Country"
      = some (strL "UK, UK") ∧
    ¬ normalForm (update_from_llm initial_user_details
        [("Country", strL "UK, UK")] "Country") := by
  constructor
  · decide
  · intro hnf
    rw [show update_from_llm initial_user_details [("Country", strL "UK, UK")] "Country"
          = some (strL "UK, UK") from by decide] at hnf
    exact absurd hnf.2 (by decide)

/-- C7 (amended): the profile never shrinks — every merge leaves each
field's token list a prefix of the new one (tokens are only appended,
in first-seen order) and never unsets a set field; and a merge into a
set field appends only distinct, trimmed tokens not already present.
The stored value itself is the first usable value verbatim, extended
by `", "`-joined appended tokens. -/
theorem profile_growth_amended :
    (∀ (d : Profile) (e : List (String × Str)) (k : String),
      (∃ ex, storedTokens (update_from_llm d e k) = storedTokens (d k) ++ ex) ∧
      (d k ≠ none → update_from_llm d e k ≠ none)) ∧
    (∀ (cv v : Str), cv ≠ [] →
      ∃ w ex, mergeField (some cv) v = some w ∧
        splitTrim w = splitTrim cv ++ ex ∧ ex.Nodup ∧
        ∀ y ∈ ex, y ∉ splitTrim cv ∧ y ≠ [] ∧ trim y = y) := by
  constructor
  · intro d e k
    exact ⟨storedTokens_update d e k, update_from_llm_ne_none d e k⟩
  · intro cv v hcv
    by_cases hu : isUsable v = true
    · rcases hE : (splitTrim v).foldl mergeStep (splitTrim cv, false) with ⟨fl, ch⟩
      cases ch
      · refine ⟨cv, [], ?_, by simp, List.nodup_nil, by simp⟩
        rw [mergeField_set hu hcv, hE]
        rfl
      · obtain ⟨hmf, _, hsplit, ex, hshape, hexmem, hexnd⟩ := mergeField_changed hu hcv hE
        refine ⟨joinCS fl, ex, hmf, ?_, hexnd, ?_⟩
        · rw [hsplit]
          exact hshape
        · intro y hy
          obtain ⟨hyv, hyn, hyne⟩ := hexmem y hy
          exact ⟨hyn, hyne, (splitTrim_good y hyv).1⟩
    · have hu' : isUsable v = false := by
        cases h2 : isUsable v
        · rfl
        · exact absurd h2 hu
      exact ⟨cv, [], by rw [mergeField_unusable hu'], by simp, List.nodup_nil, by simp⟩

/-- Witness for C7 (amended) at concrete inputs. -/
theorem profile_growth_amended_witness :
    (∃ ex, storedTokens (update_from_llm initial_user_details
          [("Country", strL "Germany")] "Country")
        = storedTokens (initial_user_details "Country") ++ ex) ∧
    (∃ w ex, mergeField (some (strL "UK")) (strL "Germany") = some w ∧
      splitTrim w = splitTrim (strL "UK") ++ ex ∧ ex.Nodup ∧
      ∀ y ∈ ex, y ∉ splitTrim (strL "UK") ∧ y ≠ [] ∧ trim y = y) :=
  ⟨(profile_growth_amended.1 initial_user_details [("Country", strL "Germany")] "Country").1,
   profile_growth_amended.2 (strL "UK") (strL "Germany") (by decide)⟩

/-! ### Claim theorems about the credential pool and the gateway -/

/-- A key manager holding exactly the two google credentials `[k1, k2]`
with a fresh rotation index. -/
def kmTwo (k1 k2 : Str) : KeyManager :=
  ⟨fun p => if p = "google" then some [k1, k2] else none, fun _ => 0⟩

/-- A key manager whose google credential list is empty. -/
def kmNoKeys : KeyManager :=
  ⟨fun p => if p = "google" then some [] else none, fun _ => 0⟩

/-- C9: with credentials `[k1, k2]`, `get_current_key` returns `k1`;
after one `rotate_key` it returns `k2` (also the rotation's own return
value); after a second it returns `k1` again; and on an empty
credential list `rotate_key` is a no-op returning `None`. -/
theorem rotation_wraparound_spec (k1 k2 : Str) :
    get_current_key (kmTwo k1 k2) "google" = some k1 ∧
    (rotate_key (kmTwo k1 k2) "google").2 = some k2 ∧
    get_current_key ((rotate_key (kmTwo k1 k2) "google").1) "google" = some k2 ∧
    (rotate_key ((rotate_key (kmTwo k1 k2) "google").1) "google").2 = some k1 ∧
    get_current_key ((rotate_key ((rotate_key (kmTwo k1 k2) "google").1) "google").1) "google"
      = some k1 ∧
    rotate_key kmNoKeys "google" = (kmNoKeys, none) :=
  ⟨by with_unfolding_all rfl, by with_unfolding_all rfl, by with_unfolding_all rfl,
   by with_unfolding_all rfl, by with_unfolding_all rfl, by with_unfolding_all rfl⟩

/-- C10: for a known provider with a non-empty credential list,
`get_current_key` always returns an element of that list, whatever the
stored rotation index (it is reduced modulo the list length); and it
returns `None` exactly when the provider is unknown or its list is
empty. -/
theorem key_lookup_total (km : KeyManager) (p : String) :
    (∀ ks, km.keys p = some ks → ks ≠ [] →
      ∃ key, get_current_key km p = some key ∧ key ∈ ks) ∧
    (get_current_key km p = none ↔ (km.keys p = none ∨ km.keys p = some [])) := by
  constructor
  · intro ks hks hne
    match ks, hne with
    | k :: t, _ =>
      have hlt : km.indices p % (k :: t).length < (k :: t).length :=
        Nat.mod_lt _ (by simp)
      refine ⟨(k :: t).get ⟨km.indices p % (k :: t).length, hlt⟩, ?_, List.get_mem _ _ _⟩
      unfold get_current_key
      rw [hks]
      exact List.get?_eq_get hlt
  · constructor
    · intro h
      cases hks : km.keys p with
      | none => exact Or.inl rfl
      | some ks =>
        cases ks with
        | nil => exact Or.inr rfl
        | cons k t =>
          exfalso
          have hlt : km.indices p % (k :: t).length < (k :: t).length :=
            Nat.mod_lt _ (by simp)
          have h2 : get_current_key km p
              = (k :: t).get? (km.indices p % (k :: t).length) := by
            unfold get_current_key
            rw [hks]
          rw [h2, List.get?_eq_get hlt] at h
          cases h
    · intro h
      rcases h with h | h <;>
        · unfold get_current_key
          rw [h]

/-- Witness for C10: a stored index (5) at or beyond the list length
(1) still yields a credential from the list. -/
def kmBeyond : KeyManager :=
  ⟨fun p => if p = "google" then some [strL "k1"] else none, fun _ => 5⟩

/-- Witness for C10 at `kmBeyond`. -/
theorem key_lookup_total_witness :
    ∃ key, get_current_key kmBeyond "google" = some key ∧ key ∈ [strL "k1"] :=
  (key_lookup_total kmBeyond "google").1 [strL "k1"] rfl (by decide)

/-- The transient-failure marker of the amended spec sentence: the
failure message contains `"429"`, or contains `"quota"` or
`"resource_exhausted"` as a case-insensitive substring.  (Modelled
from the amended spec words, to be compared with the code's
`is429Quota`.) -/
def transientMarkerSpec (msg : Str) : Bool :=
  containsSub msg (strL "429") ||
  containsSub (lowerStr msg) (strL "quota") ||
  containsSub (lowerStr msg) (strL "resource_exhausted")

/-- The fetch-outcome schedule whose first attempt raises `msg` and
whose later attempts succeed with `r`. -/
def oneFail (msg : Str) (r : UtilsRes) : Nat → FetchOutcome
  | 0 => FetchOutcome.exn msg
  | _ + 1 => FetchOutcome.success r

theorem get_response_aux_succ (outcomes : Nat → FetchOutcome) (p : String)
    (fuel attempt : Nat) (km : KeyManager) :
    get_response_aux outcomes p (fuel + 1) attempt km =
      match get_current_key km p with
      | none => (km, emptyRes noKeyMsg)
      | some _ =>
        match outcomes attempt with
        | .success r => (km, r)
        | .exn msg =>
          if is429Quota msg then
            get_response_aux outcomes p fuel (attempt + 1) (rotate_key km p).1
          else (km, emptyRes (errorAnswer msg)) := rfl

theorem gra_success {outcomes : Nat → FetchOutcome} {p : String} {fuel attempt : Nat}
    {km : KeyManager} {key : Str} {r : UtilsRes}
    (hkey : get_current_key km p = some key)
    (hout : outcomes attempt = FetchOutcome.success r) :
    get_response_aux outcomes p (fuel + 1) attempt km = (km, r) := by
  rw [get_response_aux_succ, hkey, hout]

theorem gra_exn {outcomes : Nat → FetchOutcome} {p : String} {fuel attempt : Nat}
    {km : KeyManager} {key : Str} {msg : Str}
    (hkey : get_current_key km p = some key)
    (hout : outcomes attempt = FetchOutcome.exn msg) :
    get_response_aux outcomes p (fuel + 1) attempt km =
      if is429Quota msg then
        get_response_aux outcomes p fuel (attempt + 1) (rotate_key km p).1
      else (km, emptyRes (errorAnswer msg)) := by
  rw [get_response_aux_succ, hkey, hout]

theorem gra_exn_stop {outcomes : Nat → FetchOutcome} {p : String} {fuel attempt : Nat}
    {km : KeyManager} {key : Str} {msg : Str}
    (hkey : get_current_key km p = some key)
    (hout : outcomes attempt = FetchOutcome.exn msg)
    (hq : is429Quota msg = false) :
    get_response_aux outcomes p (fuel + 1) attempt km = (km, emptyRes (errorAnswer msg)) := by
  rw [gra_exn hkey hout, hq, if_neg Bool.false_ne_true]

theorem gra_exn_retry {outcomes : Nat → FetchOutcome} {p : String} {fuel attempt : Nat}
    {km : KeyManager} {key : Str} {msg : Str}
    (hkey : get_current_key km p = some key)
    (hout : outcomes attempt = FetchOutcome.exn msg)
    (hq : is429Quota msg = true) :
    get_response_aux outcomes p (fuel + 1) attempt km =
      get_response_aux outcomes p fuel (attempt + 1) (rotate_key km p).1 := by
  rw [gra_exn hkey hout, hq, if_pos rfl]

theorem rotate_key_keys (km : KeyManager) (p : String) :
    ((rotate_key km p).1).keys = km.keys := by
  unfold rotate_key
  cases h : km.keys p with
  | none => rfl
  | some ks => cases ks <;> rfl

theorem get_current_key_some (km : KeyManager) (p : String) {ks : List Str}
    (hks : km.keys p = some ks) (hne : ks ≠ []) :
    ∃ key, get_current_key km p = some key := by
  match ks, hne with
  | k :: t, _ =>
    have hlt : km.indices p % (k :: t).length < (k :: t).length :=
      Nat.mod_lt _ (by simp)
    refine ⟨(k :: t).get ⟨km.indices p % (k :: t).length, hlt⟩, ?_⟩
    unfold get_current_key
    rw [hks]
    exact List.get?_eq_get hlt

/-- C3 (amended): the gateway classifies a failure as transient exactly
by the code's marker — `"429"`, or a case-insensitive `"quota"` or
`"resource_exhausted"` (underscore) substring.  For any provider with a
credential: a successful attempt returns its result with no rotation; a
non-transient first failure returns immediately with the error message
as the answer, the key-manager state unchanged (no rotation, no second
attempt); a transient first failure rotates the provider's credential
and retries, returning the second attempt's result with the rotated
state. -/
theorem gateway_rotation_amended (km : KeyManager) (p : String) (msg : Str) (r : UtilsRes)
    (hk : ∃ ks, km.keys p = some ks ∧ ks ≠ []) :
    (is429Quota msg = transientMarkerSpec msg) ∧
    get_response (fun _ => FetchOutcome.success r) km p = (km, r) ∧
    (transientMarkerSpec msg = false →
      get_response (oneFail msg r) km p = (km, emptyRes (errorAnswer msg))) ∧
    (transientMarkerSpec msg = true →
      get_response (oneFail msg r) km p = ((rotate_key km p).1, r)) := by
  obtain ⟨ks, hks, hne⟩ := hk
  obtain ⟨key, hkey⟩ := get_current_key_some km p hks hne
  obtain ⟨key2, hkey2⟩ : ∃ key2, get_current_key (rotate_key km p).1 p = some key2 := by
    apply get_current_key_some (rotate_key km p).1 p _ hne
    rw [rotate_key_keys]
    exact hks
  refine ⟨rfl, ?_, ?_, ?_⟩
  · exact gra_success hkey rfl
  · intro hm
    exact gra_exn_stop hkey rfl hm
  · intro hm
    exact (gra_exn_retry hkey rfl hm).trans (gra_success hkey2 rfl)

/-- Witness for C3 (amended) at concrete states and messages. -/
theorem gateway_rotation_amended_witness :
    (get_response (oneFail (strL "401 bad key") (emptyRes [])) (kmTwo (strL "k1") (strL "k2"))
        "google" = (kmTwo (strL "k1") (strL "k2"), emptyRes (errorAnswer (strL "401 bad key")))) ∧
    (get_response (oneFail (strL "429 too many requests") (emptyRes []))
        (kmTwo (strL "k1") (strL "k2")) "google"
      = ((rotate_key (kmTwo (strL "k1") (strL "k2")) "google").1, emptyRes [])) :=
  ⟨(gateway_rotation_amended (kmTwo (strL "k1") (strL "k2")) "google"
      (strL "401 bad key") (emptyRes []) ⟨[strL "k1", strL "k2"], rfl, by decide⟩).2.2.1
      (by decide),
   (gateway_rotation_amended (kmTwo (strL "k1") (strL "k2")) "google"
      (strL "429 too many requests") (emptyRes []) ⟨[strL "k1", strL "k2"], rfl, by decide⟩).2.2.2
      (by decide)⟩

/-- Counterexample to C3: the message `"Resource exhausted"` contains
`"resource exhausted"` case-insensitively — the claim's transient
marker — yet the gateway classifies it as non-transient (the code
matches the underscored `"resource_exhausted"`) and returns
immediately with the error answer, without rotating or retrying. -/
theorem gateway_transient_cex :
    containsSub (lowerStr (strL "Resource exhausted")) (strL "resource exhausted") = true ∧
    is429Quota (strL "Resource exhausted") = false ∧
    get_response (fun _ => FetchOutcome.exn (strL "Resource exhausted"))
        (kmTwo (strL "k1") (strL "k2")) "google"
      = (kmTwo (strL "k1") (strL "k2"),
         emptyRes (errorAnswer (strL "Resource exhausted"))) :=
  ⟨by decide, by decide, rfl⟩

/-! ### Claim theorems about the persistence sink and the reply parsers -/

/-- C4: whenever any remote step of the upsert raises — the key-column
read, or the range update of either the in-place or the positioned
branch — `upsert_lead` falls back to appending exactly the same
15-column row to the local CSV store. -/
theorem sink_fallback (col1E : Except Unit (List Str)) (updE : Str → Except Unit Unit)
    (d : LeadDict) (ts : Str) :
    (col1E = Except.error () →
      upsert_lead true col1E updE d ts = SinkAction.csvAppend (row_data d ts)) ∧
    (∀ col1, col1E = Except.ok col1 →
      updE (chosenRange col1 (pyStr (dgetD d "Session_ID" none))) = Except.error () →
      upsert_lead true col1E updE d ts = SinkAction.csvAppend (row_data d ts)) := by
  constructor
  · intro h
    rw [h]
    rfl
  · intro col1 h hupd
    rw [h]
    have h1 : upsert_lead true (Except.ok col1) updE d ts =
        match updE (chosenRange col1 (pyStr (dgetD d "Session_ID" none))) with
        | .error _ => SinkAction.csvAppend (row_data d ts)
        | .ok _ => SinkAction.remoteWrite
            (chosenRange col1 (pyStr (dgetD d "Session_ID" none))) (row_data d ts) := rfl
    rw [h1, hupd]

/-- Witness for C4: a failing range update lands the row in the CSV. -/
theorem sink_fallback_witness :
    upsert_lead true (Except.ok [strL "sid"]) (fun _ => Except.error ())
        [("Session_ID", some (strL "sid"))] (strL "t")
      = SinkAction.csvAppend (row_data [("Session_ID", some (strL "sid"))] (strL "t")) :=
  (sink_fallback (Except.ok [strL "sid"]) (fun _ => Except.error ())
    [("Session_ID", some (strL "sid"))] (strL "t")).2 [strL "sid"] rfl rfl

/-- C5 (code bug): on the no-JSON input of the claim the parser does
behave as claimed — the answer is the exact raw text and every lead
field is the Python `None` — but the parser is not total:
`_parse_json_result("3")` finds no brace span, `json.loads("3")`
succeeds with the non-dict `3`, and `data.get(...)` raises an uncaught
`AttributeError` (the `Except.error` of the model).  The app-level
parser `extract_json_and_sources` is total and behaves as claimed on
the same input. -/
theorem parser_crash_on_nondict :
    parse_json_result (strL "I am sorry I cannot provide JSON.")
      = Except.ok ⟨Json.str (strL "I am sorry I cannot provide JSON."),
                   Json.arr [], [], Json.arr [], emptyLeadObj⟩ ∧
    parse_json_result (strL "3") = Except.error () ∧
    extract_json_and_sources (strL "I am sorry I cannot provide JSON.")
      = ⟨Json.str (strL "I am sorry I cannot provide JSON."), Json.arr [], Json.arr [],
         emptyLeadObj⟩ :=
  ⟨rfl, rfl, rfl⟩

/-- C8 (amended): the app-level parser's extracted field map always
comes from the decoded brace-span object; when nothing decodes the map
is entirely absent and the answer falls back to the raw text with
`user_options:`/`videos:` tails truncated and code fences stripped;
when an object decodes but its `answer` is falsy (missing or empty)
the answer falls back the same way, while the field map is still read
from the decoded object. -/
theorem parser_fallback_amended (text : Str) :
    ((extract_json_and_sources text).lead_info = mkLeadObj (decodeSpan text)) ∧
    (decodeSpan text = [] →
      (extract_json_and_sources text).answer = Json.str (fallback_answer text) ∧
      (extract_json_and_sources text).lead_info = emptyLeadObj) ∧
    (pyFalsy (dictGet (decodeSpan text) (strL "answer") Json.null) = true →
      (extract_json_and_sources text).answer = Json.str (fallback_answer text)) := by
  refine ⟨rfl, ?_, ?_⟩
  · intro h
    constructor
    · show (if pyFalsy (dictGet (decodeSpan text) (strL "answer") Json.null) then
            Json.str (fallback_answer text)
          else dictGet (decodeSpan text) (strL "answer") Json.null)
          = Json.str (fallback_answer text)
      rw [h]
      rfl
    · show mkLeadObj (decodeSpan text) = emptyLeadObj
      rw [h]
      rfl
  · intro h
    show (if pyFalsy (dictGet (decodeSpan text) (strL "answer") Json.null) then
          Json.str (fallback_answer text)
        else dictGet (decodeSpan text) (strL "answer") Json.null)
        = Json.str (fallback_answer text)
    rw [h, if_pos rfl]

/-- Witness for C8 (amended): a brace-free input takes the no-object
fallback; the empty-answer object input takes the falsy-answer
fallback. -/
theorem parser_fallback_amended_witness :
    ((extract_json_and_sources (strL "no json here")).answer
        = Json.str (fallback_answer (strL "no json here")) ∧
      (extract_json_and_sources (strL "no json here")).lead_info = emptyLeadObj) ∧
    (extract_json_and_sources (strL "\x7b\"answer\": \"\", \"Name\": \"Rahul\"\x7d")).answer
      = Json.str (fallback_answer (strL "\x7b\"answer\": \"\", \"Name\": \"Rahul\"\x7d")) :=
  ⟨(parser_fallback_amended (strL "no json here")).2.1 rfl,
   (parser_fallback_amended (strL "\x7b\"answer\": \"\", \"Name\": \"Rahul\"\x7d")).2.2
     (by decide)⟩

/-- Does the parsed `lead_info` dict consist entirely of Python `None`
values (i.e. is the extracted field map entirely absent)? -/
def allFieldsAbsent : Json → Bool
  | Json.obj kvs => kvs.all (fun kv => match kv.2 with | Json.null => true | _ => false)
  | _ => false

/-- Counterexample to C8: on `'\x7b"answer": "", "Name": "Rahul"\x7d'` the
decoded object's `answer` is the empty string, the answer falls back to
the truncated/stripped raw text as claimed, but the extracted field map
is NOT entirely absent — `Name` is `"Rahul"`. -/
theorem parser_fallback_cex :
    dictGet (decodeSpan (strL "\x7b\"answer\": \"\", \"Name\": \"Rahul\"\x7d"))
        (strL "answer") Json.null = Json.str [] ∧
    (extract_json_and_sources (strL "\x7b\"answer\": \"\", \"Name\": \"Rahul\"\x7d")).answer
      = Json.str (strL "\x7b\"answer\": \"\", \"Name\": \"Rahul\"\x7d") ∧
    allFieldsAbsent ((extract_json_and_sources
        (strL "\x7b\"answer\": \"\", \"Name\": \"Rahul\"\x7d")).lead_info) = false ∧
    dictGet (decodeSpan (strL "\x7b\"answer\": \"\", \"Name\": \"Rahul\"\x7d"))
        (strL "Name") Json.null = Json.str (strL "Rahul") :=
  ⟨rfl, rfl, by decide, rfl⟩
